import Mathlib

/-!
Verification of the flowpilot frontend core: graph building and layered
layout (`src/frontend/src/lib/flowParser.ts`), execution-state merging
(`ExecutionDetailPage`), live-stream message handling (`useLiveLogs`,
`useLiveExecutionUpdates`), the log viewer (`LiveLogViewer.tsx`) and the
YAML node extractor (`src/frontend/src/lib/yamlParser.ts`), as a shallow
embedding in Lean.
-/

namespace FlowPilot

/-- `ExecutionStatusType` from `types/index.ts`. -/
inductive ExecStatus where
  | pending
  | running
  | completed
  | failed
  | cancelled
  deriving DecidableEq, Repr

/-- `WorkflowNode` from `types/index.ts`; `config` is an opaque key-value
map (modelled as an association list of opaque string values),
`depends_on` is optional. -/
structure WorkflowNode where
  id : String
  type : String
  config : List (String × String)
  depends_on : Option (List String)
  deriving DecidableEq, Repr

/-- `NodeResult` from `flowParser.ts` (the `outputs` field is an opaque
record, modelled as an association list). -/
structure NodeResult where
  node_id : String
  status : ExecStatus
  started_at : Option String
  completed_at : Option String
  duration_ms : Option Nat
  outputs : Option (List (String × String))
  error : Option String
  deriving DecidableEq, Repr

/-- A `Record<string, NodeResult>` lookup: the record is modelled as an
association list with (as in a JS object) at most one entry per key. -/
def lookupResult (results : List (String × NodeResult)) (id : String) :
    Option NodeResult :=
  (results.find? (fun p => p.1 == id)).map (fun p => p.2)

/-- `getNodeFlowType` from `flowParser.ts`. -/
def getNodeFlowType (backendType : String) : String :=
  if backendType == "shell" then "shell"
  else if backendType == "http" then "http"
  else if backendType == "file_read" then "file"
  else if backendType == "file_write" then "file"
  else if backendType == "condition" then "condition"
  else if backendType == "loop" then "loop"
  else if backendType == "delay" then "delay"
  else if backendType == "parallel" then "parallel"
  else if backendType == "claude_cli" then "claude"
  else if backendType == "claude_api" then "claude"
  else if backendType == "log" then "log"
  else "default"

/-- An edge as produced by `parseWorkflowToFlow` (`style.stroke` and
`style.strokeWidth` flattened into fields). -/
structure FlowEdge where
  id : String
  source : String
  target : String
  animated : Bool
  stroke : String
  strokeWidth : Nat
  deriving DecidableEq, Repr

/-- One edge of `parseWorkflowToFlow`: built for the dependency `dep` of
node `nodeId`, styled from the *source* (`dep`) status in `results`. -/
def edgeFor (results : List (String × NodeResult)) (dep nodeId : String) :
    FlowEdge :=
  let isRunning := (lookupResult results dep).map (fun r => r.status)
      == some ExecStatus.running
  let isCompleted := (lookupResult results dep).map (fun r => r.status)
      == some ExecStatus.completed
  { id := dep ++ "-" ++ nodeId
    source := dep
    target := nodeId
    animated := isRunning
    stroke := if isCompleted then "#22c55e"
              else if isRunning then "#3b82f6" else "#94a3b8"
    strokeWidth := 2 }

/-- The edge list of `parseWorkflowToFlow`: for each node in order, one
edge per `depends_on` entry (absent `depends_on` contributes nothing). -/
def mkFlowEdges (nodes : List WorkflowNode)
    (results : List (String × NodeResult)) : List FlowEdge :=
  nodes.foldr
    (fun node acc =>
      ((node.depends_on.getD []).map (fun dep => edgeFor results dep node.id))
        ++ acc)
    []

/-- The (dependency, dependent) pairs of a node list, in emission order. -/
def depPairs (nodes : List WorkflowNode) : List (String × String) :=
  nodes.foldr
    (fun node acc =>
      ((node.depends_on.getD []).map (fun dep => (dep, node.id))) ++ acc)
    []

/-! ### Layered layout

The layout itself is performed by the external `dagre` library
(`applyDagreLayout` in `flowParser.ts` hands it the node boxes of size
220×80, `nodesep 60`, `ranksep 100`, `rankdir TB`, and one graph edge per
flow edge).  `dagre` is not part of this repository, so the layout engine
below is modelled from the spec. -/

/-- Dimensions and spacing fixed in `applyDagreLayout`. -/
def nodeWidth : Int := 220

/-- Node box height fixed in `applyDagreLayout`. -/
def nodeHeight : Int := 80

/-- The `nodesep` horizontal gap of `applyDagreLayout`. -/
def nodesepGap : Int := 60

/-- The `ranksep` vertical gap of `applyDagreLayout`. -/
def ranksepGap : Int := 100

/-- The predecessors of the graph vertex `id`: all `depends_on` entries of
all input nodes whose id is `id` (the graph identifies nodes by id, as
`dagre`'s `setNode`/`setEdge` do). -/
def preds (nodes : List WorkflowNode) (id : String) : List String :=
  nodes.foldr
    (fun n acc => (if n.id == id then n.depends_on.getD [] else []) ++ acc)
    []

/-- Modelled from the spec: rank assignment of the Layered Layout Engine
(§4.2 step 1), `rank(n) = 1 + max(rank(p))` over the predecessors `p`,
`rank = 0` for a node with no predecessors, computed with explicit fuel
(the actual computation is inside the external `dagre` library). -/
def rankF (nodes : List WorkflowNode) : Nat → String → Nat
  | 0, _ => 0
  | fuel + 1, id =>
    let ps := preds nodes id
    if ps.isEmpty then 0
    else 1 + (ps.map (rankF nodes fuel)).foldr Nat.max 0

/-- The rank of a vertex, with enough fuel for any acyclic input. -/
def nodeRank (nodes : List WorkflowNode) (id : String) : Nat :=
  rankF nodes nodes.length id

/-- A positioned output node: the spec's GraphNode (§3), with the same
`data` payload `parseWorkflowToFlow` attaches. -/
structure FlowNode where
  id : String
  type : String
  rank : Nat
  order : Nat
  x : Int
  y : Int
  label : String
  nodeType : String
  status : Option ExecStatus
  duration_ms : Option Nat
  error : Option String
  config : List (String × String)
  deriving DecidableEq, Repr

/-- Modelled from the spec: position assignment of the Layered Layout
Engine (§4.2 steps 2-3) for the node at list index `i`.  Within-rank
order keeps the input order (an admissible crossing heuristic per §4.2),
`x = order·(width+hgap)`, `y = rank·(height+vgap)`, each minus the
half-extent so coordinates are the top-left anchor. -/
def layoutNode (nodes : List WorkflowNode)
    (results : List (String × NodeResult)) (i : Nat) (n : WorkflowNode) :
    FlowNode :=
  let r := nodeRank nodes n.id
  let ord :=
    ((nodes.take i).filter (fun m => nodeRank nodes m.id == r)).length
  { id := n.id
    type := getNodeFlowType n.type
    rank := r
    order := ord
    x := (ord : Int) * (nodeWidth + nodesepGap) - nodeWidth / 2
    y := (r : Int) * (nodeHeight + ranksepGap) - nodeHeight / 2
    label := n.id
    nodeType := n.type
    status := (lookupResult results n.id).map (fun res => res.status)
    duration_ms := (lookupResult results n.id).bind (fun res => res.duration_ms)
    error := (lookupResult results n.id).bind (fun res => res.error)
    config := n.config }

/-- Lay out the node list, threading the absolute list index. -/
def layoutNodesAux (nodes : List WorkflowNode)
    (results : List (String × NodeResult)) :
    Nat → List WorkflowNode → List FlowNode
  | _, [] => []
  | i, n :: rest =>
    layoutNode nodes results i n :: layoutNodesAux nodes results (i + 1) rest

/-- `parseWorkflowToFlow` from `flowParser.ts`: one flow node per input
node (positioned by the layout) plus one styled edge per dependency
reference. -/
def parseWorkflowToFlow (nodes : List WorkflowNode)
    (results : List (String × NodeResult)) :
    List FlowNode × List FlowEdge :=
  (layoutNodesAux nodes results 0 nodes, mkFlowEdges nodes results)

/-- A topological numbering of the dependency graph: every dependency
reference strictly decreases it, and every node id is numbered below the
node count. -/
def TopoOrder (nodes : List WorkflowNode) (ord : String → Nat) : Prop :=
  (∀ n ∈ nodes, ord n.id < nodes.length) ∧
  (∀ n ∈ nodes, ∀ d ∈ n.depends_on.getD [], ord d < ord n.id)

/-- The `depends_on` references form no dependency cycle: the finite
dependency graph admits a topological numbering. -/
def Acyclic (nodes : List WorkflowNode) : Prop :=
  ∃ ord, TopoOrder nodes ord

/-! ### Rank lemmas -/

theorem le_foldrMax {l : List Nat} {a : Nat} (h : a ∈ l) :
    a ≤ l.foldr Nat.max 0 := by
  induction l with
  | nil => cases h
  | cons b bs ih =>
    rcases List.mem_cons.mp h with rfl | h2
    · exact Nat.le_max_left _ _
    · exact Nat.le_trans (ih h2) (Nat.le_max_right _ _)

theorem foldrMax_lt {l : List Nat} {b : Nat} (hb : 0 < b)
    (h : ∀ a ∈ l, a < b) : l.foldr Nat.max 0 < b := by
  induction l with
  | nil => exact hb
  | cons c cs ih =>
    exact Nat.max_lt.mpr
      ⟨h c (List.mem_cons_self c cs),
       ih (fun a ha => h a (List.mem_cons_of_mem _ ha))⟩

theorem preds_cons (n : WorkflowNode) (rest : List WorkflowNode)
    (id : String) :
    preds (n :: rest) id =
      (if n.id == id then n.depends_on.getD [] else []) ++ preds rest id :=
  rfl

theorem mem_preds {nodes : List WorkflowNode} {id s : String} :
    s ∈ preds nodes id ↔
      ∃ n ∈ nodes, n.id = id ∧ s ∈ n.depends_on.getD [] := by
  induction nodes with
  | nil => simp [preds]
  | cons n rest ih =>
    rw [preds_cons]
    constructor
    · intro h
      rcases List.mem_append.mp h with h1 | h2
      · by_cases hid : n.id == id
        · rw [if_pos hid] at h1
          exact ⟨n, List.mem_cons_self _ _, by simpa using hid, h1⟩
        · rw [if_neg hid] at h1
          cases h1
      · obtain ⟨m, hm, hmid, hs⟩ := ih.mp h2
        exact ⟨m, List.mem_cons_of_mem _ hm, hmid, hs⟩
    · rintro ⟨m, hm, hmid, hs⟩
      rcases List.mem_cons.mp hm with rfl | hm2
      · exact List.mem_append.mpr (Or.inl (by rw [if_pos (by simp [hmid])]; exact hs))
      · exact List.mem_append.mpr (Or.inr (ih.mpr ⟨m, hm2, hmid, hs⟩))

theorem rankF_succ (nodes : List WorkflowNode) (fuel : Nat) (id : String) :
    rankF nodes (fuel + 1) id =
      if (preds nodes id).isEmpty then 0
      else 1 + ((preds nodes id).map (rankF nodes fuel)).foldr Nat.max 0 :=
  rfl

theorem ord_lt_of_mem_preds {nodes : List WorkflowNode} {ord : String → Nat}
    (h : TopoOrder nodes ord) {id p : String} (hp : p ∈ preds nodes id) :
    ord p < ord id := by
  obtain ⟨n, hn, hnid, hdep⟩ := mem_preds.mp hp
  have := h.2 n hn p hdep
  rwa [hnid] at this

theorem rankF_le_ord {nodes : List WorkflowNode} {ord : String → Nat}
    (h : TopoOrder nodes ord) :
    ∀ fuel id, rankF nodes fuel id ≤ ord id := by
  intro fuel
  induction fuel with
  | zero => intro id; exact Nat.zero_le _
  | succ f ih =>
    intro id
    rw [rankF_succ]
    by_cases hps : (preds nodes id).isEmpty
    · rw [if_pos hps]; exact Nat.zero_le _
    · rw [if_neg hps]
      have hne : preds nodes id ≠ [] := by
        intro hnil
        rw [hnil] at hps
        exact hps rfl
      obtain ⟨p0, hp0⟩ := List.exists_mem_of_ne_nil _ hne
      have hpos : 0 < ord id :=
        Nat.lt_of_le_of_lt (Nat.zero_le _) (ord_lt_of_mem_preds h hp0)
      have hmax : ((preds nodes id).map (rankF nodes f)).foldr Nat.max 0
          < ord id := by
        apply foldrMax_lt hpos
        intro a ha
        obtain ⟨p, hp, rfl⟩ := List.mem_map.mp ha
        exact Nat.lt_of_le_of_lt (ih p) (ord_lt_of_mem_preds h hp)
      omega

theorem rankF_stable {nodes : List WorkflowNode} {ord : String → Nat}
    (h : TopoOrder nodes ord) :
    ∀ fuel id, ord id ≤ fuel →
      rankF nodes (fuel + 1) id = rankF nodes fuel id := by
  intro fuel
  induction fuel with
  | zero =>
    intro id hle
    rw [rankF_succ]
    by_cases hps : (preds nodes id).isEmpty
    · rw [if_pos hps]; rfl
    · have hne : preds nodes id ≠ [] := by
        intro hnil
        rw [hnil] at hps
        exact hps rfl
      obtain ⟨p0, hp0⟩ := List.exists_mem_of_ne_nil _ hne
      have := ord_lt_of_mem_preds h hp0
      omega
  | succ g ih =>
    intro id hle
    rw [rankF_succ, rankF_succ]
    by_cases hps : (preds nodes id).isEmpty
    · rw [if_pos hps, if_pos hps]
    · rw [if_neg hps, if_neg hps]
      congr 2
      apply List.map_congr_left
      intro p hp
      have hplt : ord p < ord id := ord_lt_of_mem_preds h hp
      exact ih p (by omega)

theorem nodeRank_lt_of_dep {nodes : List WorkflowNode} {ord : String → Nat}
    (h : TopoOrder nodes ord) {n : WorkflowNode} (hn : n ∈ nodes)
    {d : String} (hd : d ∈ n.depends_on.getD []) :
    nodeRank nodes d < nodeRank nodes n.id := by
  obtain ⟨M, hM⟩ : ∃ M, nodes.length = M + 1 :=
    ⟨nodes.length - 1, by
      have := List.length_pos.mpr (List.ne_nil_of_mem hn)
      omega⟩
  have hdp : d ∈ preds nodes n.id := mem_preds.mpr ⟨n, hn, rfl, hd⟩
  have hps : ¬ (preds nodes n.id).isEmpty := by
    cases hmm : preds nodes n.id with
    | nil => rw [hmm] at hdp; cases hdp
    | cons a l => simp
  have hstab : rankF nodes (M + 1) d = rankF nodes M d := by
    apply rankF_stable h
    have h1 := h.2 n hn d hd
    have h2 := h.1 n hn
    omega
  unfold nodeRank
  rw [hM, hstab, rankF_succ, if_neg hps]
  have hle : rankF nodes M d
      ≤ ((preds nodes n.id).map (rankF nodes M)).foldr Nat.max 0 :=
    le_foldrMax (List.mem_map.mpr ⟨d, hdp, rfl⟩)
  omega

/-! ### Layout output lemmas -/

theorem layoutNode_id (nodes : List WorkflowNode)
    (results : List (String × NodeResult)) (i : Nat) (n : WorkflowNode) :
    (layoutNode nodes results i n).id = n.id := rfl

theorem layoutNode_rank (nodes : List WorkflowNode)
    (results : List (String × NodeResult)) (i : Nat) (n : WorkflowNode) :
    (layoutNode nodes results i n).rank = nodeRank nodes n.id := rfl

theorem layoutNode_order (nodes : List WorkflowNode)
    (results : List (String × NodeResult)) (i : Nat) (n : WorkflowNode) :
    (layoutNode nodes results i n).order =
      ((nodes.take i).filter
        (fun m => nodeRank nodes m.id == nodeRank nodes n.id)).length := rfl

theorem layoutNode_x (nodes : List WorkflowNode)
    (results : List (String × NodeResult)) (i : Nat) (n : WorkflowNode) :
    (layoutNode nodes results i n).x =
      ((layoutNode nodes results i n).order : Int) * (nodeWidth + nodesepGap)
        - nodeWidth / 2 := rfl

theorem layoutNode_y (nodes : List WorkflowNode)
    (results : List (String × NodeResult)) (i : Nat) (n : WorkflowNode) :
    (layoutNode nodes results i n).y =
      (nodeRank nodes n.id : Int) * (nodeHeight + ranksepGap)
        - nodeHeight / 2 := rfl

theorem mem_layoutNodesAux {nodes : List WorkflowNode}
    {results : List (String × NodeResult)} :
    ∀ (l : List WorkflowNode) (i : Nat) (m : FlowNode),
      m ∈ layoutNodesAux nodes results i l ↔
        ∃ j : Fin l.length,
          m = layoutNode nodes results (i + j.val) (l.get j) := by
  intro l
  induction l with
  | nil =>
    intro i m
    constructor
    · intro h; cases h
    · rintro ⟨j, -⟩
      exact absurd j.isLt (by simp)
  | cons n rest ih =>
    intro i m
    constructor
    · intro h
      rcases List.mem_cons.mp h with rfl | h2
      · exact ⟨⟨0, Nat.succ_pos _⟩, by simp⟩
      · obtain ⟨j, rfl⟩ := (ih (i + 1) m).mp h2
        refine ⟨⟨j.val + 1, Nat.succ_lt_succ j.isLt⟩, ?_⟩
        have harith : i + 1 + j.val = i + (j.val + 1) := by omega
        rw [← harith]
        rfl
    · rintro ⟨⟨jv, hj⟩, rfl⟩
      cases jv with
      | zero => exact List.mem_cons_self _ _
      | succ k =>
        apply List.mem_cons_of_mem
        apply (ih (i + 1) _).mpr
        refine ⟨⟨k, Nat.lt_of_succ_lt_succ hj⟩, ?_⟩
        have harith : i + (k + 1) = i + 1 + k := by omega
        rw [harith]
        rfl

theorem mkFlowEdges_cons (n : WorkflowNode) (rest : List WorkflowNode)
    (results : List (String × NodeResult)) :
    mkFlowEdges (n :: rest) results =
      ((n.depends_on.getD []).map (fun dep => edgeFor results dep n.id))
        ++ mkFlowEdges rest results := rfl

theorem mem_mkFlowEdges {results : List (String × NodeResult)}
    {e : FlowEdge} :
    ∀ {nodes : List WorkflowNode},
      e ∈ mkFlowEdges nodes results ↔
        ∃ n ∈ nodes, ∃ dp ∈ n.depends_on.getD [],
          e = edgeFor results dp n.id := by
  intro nodes
  induction nodes with
  | nil => simp [mkFlowEdges]
  | cons n rest ih =>
    rw [mkFlowEdges_cons]
    constructor
    · intro h
      rcases List.mem_append.mp h with h1 | h2
      · obtain ⟨dp, hdp, hedge⟩ := List.mem_map.mp h1
        exact ⟨n, List.mem_cons_self _ _, dp, hdp, hedge.symm⟩
      · obtain ⟨m, hm, dp, hdp, hedge⟩ := ih.mp h2
        exact ⟨m, List.mem_cons_of_mem _ hm, dp, hdp, hedge⟩
    · rintro ⟨m, hm, dp, hdp, rfl⟩
      rcases List.mem_cons.mp hm with rfl | hm2
      · exact List.mem_append.mpr (Or.inl (List.mem_map.mpr ⟨dp, hdp, rfl⟩))
      · exact List.mem_append.mpr (Or.inr (ih.mpr ⟨m, hm2, dp, hdp, rfl⟩))

theorem filter_take_length_lt {α : Type} (p : α → Bool) (l : List α)
    {a b : Nat} (hab : a < b) (ha : a < l.length)
    (hpa : p (l.get ⟨a, ha⟩) = true) :
    ((l.take a).filter p).length < ((l.take b).filter p).length := by
  have h1 : l.take (a + 1) = l.take a ++ [l.get ⟨a, ha⟩] := by
    rw [List.take_succ, List.getElem?_eq_getElem ha]
    simp [List.get_eq_getElem]
  have hpa2 : p l[a] = true := hpa
  have h2 : ((l.take (a + 1)).filter p).length
      = ((l.take a).filter p).length + 1 := by
    rw [h1, List.filter_append]
    simp [List.filter, List.get_eq_getElem, hpa2]
  have h3 : List.Sublist ((l.take (a + 1)).filter p)
      ((l.take b).filter p) :=
    (List.take_sublist_take_left l (by omega)).filter p
  have h4 := h3.length_le
  omega

theorem edgeFor_source (results : List (String × NodeResult))
    (dep nodeId : String) : (edgeFor results dep nodeId).source = dep := rfl

theorem edgeFor_target (results : List (String × NodeResult))
    (dep nodeId : String) : (edgeFor results dep nodeId).target = nodeId := rfl

theorem mem_layout_out {nodes : List WorkflowNode}
    {results : List (String × NodeResult)} {m : FlowNode} :
    m ∈ (parseWorkflowToFlow nodes results).1 ↔
      ∃ j : Fin nodes.length,
        m = layoutNode nodes results j.val (nodes.get j) := by
  show m ∈ layoutNodesAux nodes results 0 nodes ↔ _
  rw [mem_layoutNodesAux]
  constructor
  · rintro ⟨j, h⟩
    exact ⟨j, by simpa [Nat.zero_add] using h⟩
  · rintro ⟨j, h⟩
    exact ⟨j, by simpa [Nat.zero_add] using h⟩

theorem layoutNode_x_add_width_le (nodes : List WorkflowNode)
    (results : List (String × NodeResult)) (j1 j2 : Fin nodes.length)
    (hlt : j1.val < j2.val)
    (hrk : (layoutNode nodes results j1.val (nodes.get j1)).rank
         = (layoutNode nodes results j2.val (nodes.get j2)).rank) :
    (layoutNode nodes results j1.val (nodes.get j1)).x + nodeWidth
      ≤ (layoutNode nodes results j2.val (nodes.get j2)).x := by
  rw [layoutNode_rank, layoutNode_rank] at hrk
  rw [layoutNode_x, layoutNode_x, layoutNode_order, layoutNode_order, hrk]
  have hord :
      ((nodes.take j1.val).filter
        (fun m => nodeRank nodes m.id
          == nodeRank nodes (nodes.get j2).id)).length
      < ((nodes.take j2.val).filter
        (fun m => nodeRank nodes m.id
          == nodeRank nodes (nodes.get j2).id)).length := by
    apply filter_take_length_lt _ _ hlt j1.isLt
    show (nodeRank nodes (nodes.get j1).id
        == nodeRank nodes (nodes.get j2).id) = true
    rw [hrk]
    exact beq_self_eq_true _
  simp only [nodeWidth, nodesepGap]
  omega

/-- C1: for every acyclic input, every emitted edge points strictly
downward (the target's y strictly exceeds the source's y), and no two
output nodes sharing a rank overlap in x. -/
theorem parseWorkflowToFlow_layout_correct (nodes : List WorkflowNode)
    (results : List (String × NodeResult)) (hacyc : Acyclic nodes) :
    (∀ e ∈ (parseWorkflowToFlow nodes results).2,
       ∀ ns ∈ (parseWorkflowToFlow nodes results).1,
       ∀ nt ∈ (parseWorkflowToFlow nodes results).1,
       ns.id = e.source → nt.id = e.target → ns.y < nt.y) ∧
    (∀ n1 ∈ (parseWorkflowToFlow nodes results).1,
       ∀ n2 ∈ (parseWorkflowToFlow nodes results).1,
       n1 ≠ n2 → n1.rank = n2.rank →
       n1.x + nodeWidth ≤ n2.x ∨ n2.x + nodeWidth ≤ n1.x) := by
  obtain ⟨ord, hord⟩ := hacyc
  constructor
  · intro e he ns hns nt hnt hs ht
    have he2 : e ∈ mkFlowEdges nodes results := he
    obtain ⟨n0, hn0, dp, hdp, rfl⟩ := mem_mkFlowEdges.mp he2
    rw [edgeFor_source] at hs
    rw [edgeFor_target] at ht
    obtain ⟨js, rfl⟩ := mem_layout_out.mp hns
    obtain ⟨jt, rfl⟩ := mem_layout_out.mp hnt
    rw [layoutNode_id] at hs ht
    rw [layoutNode_y, layoutNode_y, hs, ht]
    have hrk := nodeRank_lt_of_dep hord hn0 hdp
    simp only [nodeHeight, ranksepGap]
    omega
  · intro n1 h1 n2 h2 hne hrk
    obtain ⟨j1, rfl⟩ := mem_layout_out.mp h1
    obtain ⟨j2, rfl⟩ := mem_layout_out.mp h2
    have hjj : j1.val ≠ j2.val := by
      intro hv
      exact hne (by rw [Fin.ext hv])
    rcases Nat.lt_or_ge j1.val j2.val with hlt | hge
    · exact Or.inl (layoutNode_x_add_width_le nodes results j1 j2 hlt hrk)
    · have hlt2 : j2.val < j1.val := Nat.lt_of_le_of_ne hge (Ne.symm hjj)
      exact Or.inr
        (layoutNode_x_add_width_le nodes results j2 j1 hlt2 hrk.symm)

/-- The spec's end-to-end diamond workflow (§8, scenario 1). -/
def diamondNodes : List WorkflowNode :=
  [⟨"a", "shell", [], none⟩,
   ⟨"b", "shell", [], some ["a"]⟩,
   ⟨"c", "shell", [], some ["a"]⟩,
   ⟨"d", "shell", [], some ["b", "c"]⟩]

/-- A topological numbering of the diamond workflow. -/
def diamondOrd : String → Nat :=
  fun id => if id == "a" then 0 else if id == "d" then 2 else 1

/-- C1 witness: the layout theorem applied to the diamond workflow. -/
theorem parseWorkflowToFlow_layout_correct_witness :
    TopoOrder diamondNodes diamondOrd ∧
      ((∀ e ∈ (parseWorkflowToFlow diamondNodes []).2,
          ∀ ns ∈ (parseWorkflowToFlow diamondNodes []).1,
          ∀ nt ∈ (parseWorkflowToFlow diamondNodes []).1,
          ns.id = e.source → nt.id = e.target → ns.y < nt.y) ∧
       (∀ n1 ∈ (parseWorkflowToFlow diamondNodes []).1,
          ∀ n2 ∈ (parseWorkflowToFlow diamondNodes []).1,
          n1 ≠ n2 → n1.rank = n2.rank →
          n1.x + nodeWidth ≤ n2.x ∨ n2.x + nodeWidth ≤ n1.x)) :=
  ⟨⟨by decide, by decide⟩,
   parseWorkflowToFlow_layout_correct diamondNodes []
     ⟨diamondOrd, by decide, by decide⟩⟩

/-! ### Execution state overlay (`ExecutionDetailPage`) -/

/-- `NodeExecutionResponse` from `types/index.ts`. -/
structure NodeExecutionResponse where
  id : Nat
  node_id : String
  node_type : String
  status : ExecStatus
  started_at : Option String
  finished_at : Option String
  duration_ms : Option Nat
  stdout : String
  stderr : String
  output : String
  error : Option String
  deriving DecidableEq, Repr

/-- The per-node record `ExecutionDetailPage` builds from a
`NodeExecutionResponse` (identical for the historical and the live
branch of the merge). -/
def toNodeResult (ne : NodeExecutionResponse) : NodeResult :=
  { node_id := ne.node_id
    status := ne.status
    started_at := ne.started_at
    completed_at := ne.finished_at
    duration_ms := ne.duration_ms
    outputs := none
    error := ne.error }

/-- One JS record assignment `results[k] = v`. -/
def updateMap (m : String → Option NodeResult) (k : String) (v : NodeResult) :
    String → Option NodeResult :=
  fun id => if id = k then some v else m id

/-- The first loop of the `ExecutionDetailPage` merge: insert every
historical `node_executions` entry, keyed by its `node_id`. -/
def historicalResults (hist : List NodeExecutionResponse) :
    String → Option NodeResult :=
  hist.foldl (fun m ne => updateMap m ne.node_id (toNodeResult ne))
    (fun _ => none)

/-- The merged map of `ExecutionDetailPage`: the historical entries,
then every live entry written over them wholesale (the live map is a JS
record, modelled as an association list keyed once per node id). -/
def mergeNodeResults (hist : List NodeExecutionResponse)
    (live : List (String × NodeExecutionResponse)) :
    String → Option NodeResult :=
  live.foldl (fun m p => updateMap m p.1 (toNodeResult p.2))
    (historicalResults hist)

theorem foldl_updateMap_not_mem :
    ∀ (l : List (String × NodeExecutionResponse))
      (m : String → Option NodeResult) (k : String),
      k ∉ l.map Prod.fst →
      l.foldl (fun m p => updateMap m p.1 (toNodeResult p.2)) m k = m k := by
  intro l
  induction l with
  | nil => intro m k _; rfl
  | cons p rest ih =>
    intro m k hk
    have hk1 : k ≠ p.1 := by
      intro h
      exact hk (by rw [h]; exact List.mem_map.mpr ⟨p, List.mem_cons_self _ _, rfl⟩)
    have hk2 : k ∉ rest.map Prod.fst := by
      intro h
      exact hk (List.mem_cons_of_mem _ h)
    show List.foldl _ (updateMap m p.1 (toNodeResult p.2)) rest k = m k
    rw [ih _ k hk2]
    exact if_neg hk1

theorem foldl_updateMap_mem :
    ∀ (l : List (String × NodeExecutionResponse))
      (m : String → Option NodeResult) (k : String)
      (v : NodeExecutionResponse),
      (k, v) ∈ l → (l.map Prod.fst).Nodup →
      l.foldl (fun m p => updateMap m p.1 (toNodeResult p.2)) m k
        = some (toNodeResult v) := by
  intro l
  induction l with
  | nil => intro m k v h _; cases h
  | cons p rest ih =>
    intro m k v hm hnd
    rcases List.mem_cons.mp hm with heq | hrest
    · subst heq
      have hknot : k ∉ rest.map Prod.fst :=
        (List.nodup_cons.mp (by simpa using hnd)).1
      show List.foldl _ (updateMap m k (toNodeResult v)) rest k = _
      rw [foldl_updateMap_not_mem rest _ k hknot]
      show (if k = k then some (toNodeResult v) else m k) = _
      rw [if_pos rfl]
    · have hnd2 : (rest.map Prod.fst).Nodup :=
        (List.nodup_cons.mp (by simpa using hnd)).2
      exact ih _ k v hrest hnd2

/-- C2: the merged map equals the historical map except that every node
id present in the live map takes the live entry wholesale. -/
theorem mergeNodeResults_live_wins (hist : List NodeExecutionResponse)
    (live : List (String × NodeExecutionResponse))
    (hkeys : (live.map Prod.fst).Nodup) :
    (∀ k ne, (k, ne) ∈ live →
        mergeNodeResults hist live k = some (toNodeResult ne)) ∧
    (∀ k, k ∉ live.map Prod.fst →
        mergeNodeResults hist live k = historicalResults hist k) :=
  ⟨fun k ne hm => foldl_updateMap_mem live _ k ne hm hkeys,
   fun k hk => foldl_updateMap_not_mem live _ k hk⟩

/-- Historical record for node `A`: completed. -/
def histCompletedA : NodeExecutionResponse :=
  ⟨1, "A", "shell", ExecStatus.completed, some "t0", some "t1", some 5,
    "", "", "", none⟩

/-- Live record for node `A`: running. -/
def liveRunningA : NodeExecutionResponse :=
  ⟨1, "A", "shell", ExecStatus.running, some "t2", none, none,
    "", "", "", none⟩

/-- C2 witness: with historical `{A: completed}` and live `{A: running}`
the merged entry for `A` is the live record wholesale, status running. -/
theorem mergeNodeResults_live_wins_witness :
    ((([("A", liveRunningA)]).map Prod.fst).Nodup) ∧
      mergeNodeResults [histCompletedA] [("A", liveRunningA)] "A"
        = some (toNodeResult liveRunningA) ∧
      (mergeNodeResults [histCompletedA] [("A", liveRunningA)] "A").map
          (fun r => r.status) = some ExecStatus.running :=
  ⟨by decide,
   (mergeNodeResults_live_wins [histCompletedA] [("A", liveRunningA)]
       (by decide)).1 "A" liveRunningA (by decide),
   by decide⟩

/-! ### Edge styling (C3) -/

theorem edgeFor_animated (results : List (String × NodeResult))
    (dep nodeId : String) :
    (edgeFor results dep nodeId).animated
      = ((lookupResult results dep).map (fun r => r.status)
          == some ExecStatus.running) := rfl

theorem edgeFor_stroke (results : List (String × NodeResult))
    (dep nodeId : String) :
    (edgeFor results dep nodeId).stroke
      = (if (lookupResult results dep).map (fun r => r.status)
            == some ExecStatus.completed then "#22c55e"
         else if (lookupResult results dep).map (fun r => r.status)
            == some ExecStatus.running then "#3b82f6"
         else "#94a3b8") := rfl

/-- C3: every emitted edge is styled solely from its source's status in
the result map: running gives an animated progress edge, completed a
static success edge, anything else (or no entry) a static neutral
edge. -/
theorem parseWorkflowToFlow_edge_styling (nodes : List WorkflowNode)
    (results : List (String × NodeResult)) :
    ∀ e ∈ (parseWorkflowToFlow nodes results).2,
      ((lookupResult results e.source).map (fun r => r.status)
          = some ExecStatus.running →
        e.animated = true ∧ e.stroke = "#3b82f6") ∧
      ((lookupResult results e.source).map (fun r => r.status)
          = some ExecStatus.completed →
        e.animated = false ∧ e.stroke = "#22c55e") ∧
      (∀ s, (lookupResult results e.source).map (fun r => r.status) = some s →
        s ≠ ExecStatus.running → s ≠ ExecStatus.completed →
        e.animated = false ∧ e.stroke = "#94a3b8") ∧
      ((lookupResult results e.source).map (fun r => r.status) = none →
        e.animated = false ∧ e.stroke = "#94a3b8") := by
  intro e he
  have he2 : e ∈ mkFlowEdges nodes results := he
  obtain ⟨n0, hn0, dp, hdp, rfl⟩ := mem_mkFlowEdges.mp he2
  refine ⟨?_, ?_, ?_, ?_⟩
  · intro hst
    rw [edgeFor_source] at hst
    rw [edgeFor_animated, edgeFor_stroke, hst]
    exact ⟨by decide, by decide⟩
  · intro hst
    rw [edgeFor_source] at hst
    rw [edgeFor_animated, edgeFor_stroke, hst]
    exact ⟨by decide, by decide⟩
  · intro s hst hs1 hs2
    rw [edgeFor_source] at hst
    rw [edgeFor_animated, edgeFor_stroke, hst]
    cases s
    · exact ⟨by decide, by decide⟩
    · exact absurd rfl hs1
    · exact absurd rfl hs2
    · exact ⟨by decide, by decide⟩
    · exact ⟨by decide, by decide⟩
  · intro hst
    rw [edgeFor_source] at hst
    rw [edgeFor_animated, edgeFor_stroke, hst]
    exact ⟨by decide, by decide⟩

/-- Input with one dependency edge `a → b`. -/
def pairNodes : List WorkflowNode :=
  [⟨"a", "shell", [], none⟩, ⟨"b", "shell", [], some ["a"]⟩]

/-- Result map with `a` running. -/
def runningAResults : List (String × NodeResult) :=
  [("a", ⟨"a", ExecStatus.running, some "t0", none, none, none, none⟩)]

/-- C3 witness: the styling theorem applied to the edge `a-b` with
source `a` running. -/
theorem parseWorkflowToFlow_edge_styling_witness :
    (edgeFor runningAResults "a" "b"
        ∈ (parseWorkflowToFlow pairNodes runningAResults).2) ∧
      ((lookupResult runningAResults "a").map (fun r => r.status)
        = some ExecStatus.running) ∧
      ((edgeFor runningAResults "a" "b").animated = true ∧
        (edgeFor runningAResults "a" "b").stroke = "#3b82f6") :=
  ⟨by decide, by decide,
   (parseWorkflowToFlow_edge_styling pairNodes runningAResults
       (edgeFor runningAResults "a" "b") (by decide)).1 (by decide)⟩

/-! ### Duplicate ids and edge identity (C4, C5) -/

/-- Two input nodes sharing the id `a`. -/
def dupIdNodes : List WorkflowNode :=
  [⟨"a", "shell", [], none⟩, ⟨"a", "http", [], none⟩]

/-- C4: `parseWorkflowToFlow` does not fail on a duplicate node id; it
silently returns a graph carrying both nodes with the same id (the
function is total and performs no duplicate check). -/
theorem parseWorkflowToFlow_duplicate_ids_not_rejected :
    ((parseWorkflowToFlow dupIdNodes []).1.map (fun n => n.id))
      = ["a", "a"] := by decide

/-- A node listing the same dependency twice. -/
def dupDepNodes : List WorkflowNode :=
  [⟨"x", "shell", [], some ["a", "a"]⟩]

/-- C5 counterexample: a node list on which two produced edges share the
id `a-x`, refuting edge-id uniqueness for arbitrary input. -/
theorem parseWorkflowToFlow_edge_id_clash :
    ((parseWorkflowToFlow dupDepNodes []).2.map (fun e => e.id))
        = ["a-x", "a-x"] ∧
      ¬ ((parseWorkflowToFlow dupDepNodes []).2.map
          (fun e => e.id)).Nodup := by
  exact ⟨by decide, by decide⟩

theorem depPairs_cons (n : WorkflowNode) (rest : List WorkflowNode) :
    depPairs (n :: rest) =
      ((n.depends_on.getD []).map (fun dep => (dep, n.id)))
        ++ depPairs rest := rfl

theorem mkFlowEdges_map_id (results : List (String × NodeResult)) :
    ∀ nodes : List WorkflowNode,
      (mkFlowEdges nodes results).map (fun e => e.id)
        = (depPairs nodes).map (fun p => p.1 ++ "-" ++ p.2) := by
  intro nodes
  induction nodes with
  | nil => rfl
  | cons n rest ih =>
    rw [mkFlowEdges_cons, depPairs_cons, List.map_append, List.map_append,
      List.map_map, List.map_map, ih]
    rfl

theorem mkFlowEdges_length (results : List (String × NodeResult)) :
    ∀ nodes : List WorkflowNode,
      (mkFlowEdges nodes results).length
        = (nodes.map (fun n => (n.depends_on.getD []).length)).sum := by
  intro nodes
  induction nodes with
  | nil => rfl
  | cons n rest ih =>
    rw [mkFlowEdges_cons, List.length_append, List.length_map, ih,
      List.map_cons, List.sum_cons]

theorem sep_append_inj {c : Char} :
    ∀ (l1 l2 r1 r2 : List Char), c ∉ l1 → c ∉ l2 →
      l1 ++ c :: r1 = l2 ++ c :: r2 → l1 = l2 ∧ r1 = r2 := by
  intro l1
  induction l1 with
  | nil =>
    intro l2 r1 r2 h1 h2 heq
    cases l2 with
    | nil =>
      exact ⟨rfl, by simpa using heq⟩
    | cons b bs =>
      exfalso
      apply h2
      have hb : c = b := by
        have := congrArg (fun l => l.head?) heq
        simpa using this
      rw [hb]
      exact List.mem_cons_self _ _
  | cons a as ih =>
    intro l2 r1 r2 h1 h2 heq
    cases l2 with
    | nil =>
      exfalso
      apply h1
      have ha : a = c := by
        have := congrArg (fun l => l.head?) heq
        simpa using this
      rw [ha]
      exact List.mem_cons_self _ _
    | cons b bs =>
      have hab : a = b := by
        have := congrArg (fun l => l.head?) heq
        simpa using this
      have htl : as ++ c :: r1 = bs ++ c :: r2 := by
        have := congrArg List.tail heq
        simpa using this
      have h1t : c ∉ as := fun h => h1 (List.mem_cons_of_mem _ h)
      have h2t : c ∉ bs := fun h => h2 (List.mem_cons_of_mem _ h)
      obtain ⟨he, ht⟩ := ih bs r1 r2 h1t h2t htl
      exact ⟨by rw [hab, he], ht⟩

theorem string_sep_inj {s1 t1 s2 t2 : String}
    (h1 : ¬ ('-' ∈ s1.data)) (h2 : ¬ ('-' ∈ s2.data))
    (heq : s1 ++ "-" ++ t1 = s2 ++ "-" ++ t2) : s1 = s2 ∧ t1 = t2 := by
  have hd : s1.data ++ '-' :: t1.data = s2.data ++ '-' :: t2.data := by
    have := congrArg String.data heq
    simpa [String.data_append] using this
  obtain ⟨hs, ht⟩ := sep_append_inj s1.data s2.data t1.data t2.data h1 h2 hd
  constructor
  · cases s1; cases s2; exact congrArg String.mk (by simpa using hs)
  · cases t1; cases t2; exact congrArg String.mk (by simpa using ht)

/-- C5 (amended): the edge count always equals the total number of
dependency references; and when the (dependency, dependent) pairs are
pairwise distinct and no dependency reference contains a hyphen, no two
edges share an id. -/
theorem parseWorkflowToFlow_edge_count_and_ids (nodes : List WorkflowNode)
    (results : List (String × NodeResult)) :
    ((parseWorkflowToFlow nodes results).2.length
      = (nodes.map (fun n => (n.depends_on.getD []).length)).sum) ∧
    ((depPairs nodes).Nodup →
      (∀ p ∈ depPairs nodes, ¬ ('-' ∈ p.1.data)) →
      ((parseWorkflowToFlow nodes results).2.map (fun e => e.id)).Nodup) := by
  constructor
  · exact mkFlowEdges_length results nodes
  · intro hnd hhy
    show ((mkFlowEdges nodes results).map (fun e => e.id)).Nodup
    rw [mkFlowEdges_map_id]
    apply hnd.map_on
    intro p hp q hq heq
    obtain ⟨hs, ht⟩ :=
      string_sep_inj (hhy p hp) (hhy q hq) heq
    cases p; cases q
    simp only at hs ht
    rw [hs, ht]

/-- C5 witness: count and id-uniqueness on the diamond workflow. -/
theorem parseWorkflowToFlow_edge_count_and_ids_witness :
    ((depPairs diamondNodes).Nodup) ∧
      ((parseWorkflowToFlow diamondNodes []).2.length
        = (diamondNodes.map (fun n => (n.depends_on.getD []).length)).sum) ∧
      ((parseWorkflowToFlow diamondNodes []).2.map (fun e => e.id)).Nodup :=
  ⟨by decide,
   (parseWorkflowToFlow_edge_count_and_ids diamondNodes []).1,
   (parseWorkflowToFlow_edge_count_and_ids diamondNodes []).2
     (by decide) (by decide)⟩

/-! ### Log viewer: filtering and export (`LiveLogViewer.tsx`) -/

/-- `LogEntry` as constructed by `useLiveLogs` and consumed by
`LiveLogViewer` (its type declaration is not under `src/`; fields are
taken from the construction site and spec §3). -/
structure LogEntry where
  id : String
  level : String
  message : String
  timestamp : String
  node_id : Option String
  execution_id : String
  deriving DecidableEq, Repr

/-- JS `String.prototype.toLowerCase` (ASCII model). -/
def lowerStr (s : String) : String := s.map Char.toLower

/-- JS `String.prototype.toUpperCase` (ASCII model). -/
def upperStr (s : String) : String := s.map Char.toUpper

/-- Whether `needle` is a prefix of `hay`, on character lists. -/
def startsWithL : List Char → List Char → Bool
  | [], _ => true
  | _ :: _, [] => false
  | a :: as, b :: bs => a == b && startsWithL as bs

/-- Whether `needle` occurs contiguously in `hay`. -/
def substrL (needle : List Char) : List Char → Bool
  | [] => needle.isEmpty
  | c :: rest => startsWithL needle (c :: rest) || substrL needle rest

/-- JS `s.includes(q)`. -/
def jsIncludes (s q : String) : Bool := substrL q.data s.data

/-- The filter callback of `filteredLogs` in `LiveLogViewer.tsx`: reject
a level outside the level filter, then (for a non-empty query) require a
lower-cased substring match on `message` or on `node_id` (an absent
`node_id` contributes a falsy optional-chain result). -/
def logPassesCode (levelFilter : List String) (searchQuery : String)
    (log : LogEntry) : Bool :=
  if !(levelFilter.contains log.level) then false
  else if searchQuery == "" then true
  else
    let query := lowerStr searchQuery
    jsIncludes (lowerStr log.message) query
      || (match log.node_id with
          | some nid => jsIncludes (lowerStr nid) query
          | none => false)

/-- `filteredLogs` from `LiveLogViewer.tsx`. -/
def filteredLogs (logs : List LogEntry) (levelFilter : List String)
    (searchQuery : String) : List LogEntry :=
  logs.filter (logPassesCode levelFilter searchQuery)

/-- The spec's filter predicate (§4.5): level in the level set AND
(query empty OR query a case-insensitive substring of the message or of
the node id). -/
def logMatchesFilter (levelFilter : List String) (searchQuery : String)
    (log : LogEntry) : Bool :=
  levelFilter.contains log.level
    && (searchQuery == ""
        || jsIncludes (lowerStr log.message) (lowerStr searchQuery)
        || (match log.node_id with
            | some nid => jsIncludes (lowerStr nid) (lowerStr searchQuery)
            | none => false))

/-- C6: the rendered filter equals a pure filter of the full sequence by
the spec predicate, and is an order-preserving subsequence of the
underlying sequence (nothing reordered, nothing added). -/
theorem filteredLogs_spec (logs : List LogEntry) (levelFilter : List String)
    (searchQuery : String) :
    filteredLogs logs levelFilter searchQuery
        = logs.filter (logMatchesFilter levelFilter searchQuery) ∧
      List.Sublist (filteredLogs logs levelFilter searchQuery) logs := by
  have hpred : ∀ log, logPassesCode levelFilter searchQuery log
      = logMatchesFilter levelFilter searchQuery log := by
    intro log
    unfold logPassesCode logMatchesFilter
    cases h1 : levelFilter.contains log.level with
    | false => simp [h1]
    | true =>
      cases h2 : searchQuery == "" with
      | false => simp [h1, h2]
      | true => simp [h1, h2]
  constructor
  · exact List.filter_congr (fun x _ => hpred x)
  · exact List.filter_sublist logs

/-- One line of the export, exactly as the template literal in
`exportLogs` builds it (a falsy `node_id` contributes no segment). -/
def exportLogLine (log : LogEntry) : String :=
  log.timestamp ++ " [" ++ upperStr log.level ++ "] "
    ++ (match log.node_id with
        | some nid => if nid == "" then "" else "[" ++ nid ++ "] "
        | none => "")
    ++ log.message

/-- `exportLogs` from `LiveLogViewer.tsx`: the filtered sequence, one
formatted line per entry, joined with newlines. -/
def exportLogsContent (logs : List LogEntry) (levelFilter : List String)
    (searchQuery : String) : String :=
  String.intercalate "\n"
    ((filteredLogs logs levelFilter searchQuery).map exportLogLine)

/-- The download filename `exportLogs` assigns. -/
def exportFileName (executionId : String) : String :=
  "execution-" ++ executionId ++ "-logs.txt"

/-- The spec's serialization of one entry (§4.5):
`timestamp [LEVEL] [nodeId] message`, with the nodeId segment omitted
when the entry has none. -/
def specLogLine (log : LogEntry) : String :=
  match log.node_id with
  | some nid =>
    if nid == "" then
      log.timestamp ++ " [" ++ upperStr log.level ++ "] " ++ log.message
    else
      log.timestamp ++ " [" ++ upperStr log.level ++ "] "
        ++ ("[" ++ nid ++ "] ") ++ log.message
  | none => log.timestamp ++ " [" ++ upperStr log.level ++ "] " ++ log.message

/-- C9: the export serializes exactly the filtered entries, in order,
each formatted per the spec, and the offered filename is
`execution-<executionId>-logs.txt`. -/
theorem exportLogs_spec (logs : List LogEntry) (levelFilter : List String)
    (searchQuery : String) (executionId : String) :
    exportLogsContent logs levelFilter searchQuery
        = String.intercalate "\n"
            ((filteredLogs logs levelFilter searchQuery).map specLogLine) ∧
      exportFileName executionId
        = "execution-" ++ executionId ++ "-logs.txt" := by
  constructor
  · unfold exportLogsContent
    congr 1
    apply List.map_congr_left
    intro log _
    unfold exportLogLine specLogLine
    cases hnid : log.node_id with
    | none => simp
    | some nid =>
      cases hempty : nid == "" with
      | false => simp [hempty]
      | true => simp [hempty]
  · rfl

/-! ### Auto-follow state machine (`LiveLogViewer.tsx`)

`autoScroll` is flipped by `handleScroll` (comparing scroll position to
content height within epsilon 10), appends scroll to the last filtered
index only while `autoScroll` holds (the effect on
`filteredLogs.length`), and the Resume button re-enables `autoScroll`
and scrolls to the end. -/

/-- Where the viewport is: pinned to a filtered-entry index (after a
programmatic `scrollToIndex`) or wherever the user scrolled. -/
inductive ViewPos where
  | atIndex (i : Nat)
  | scrolled (scrollHeight scrollTop clientHeight : Int)
  deriving DecidableEq, Repr

/-- The viewer state: the `autoScroll` flag, the filtered-entry count,
and the viewport position. -/
structure ViewerState where
  autoScroll : Bool
  filteredCount : Nat
  viewport : ViewPos
  deriving DecidableEq, Repr

/-- Events acting on the viewer: a new filtered entry arriving, a user
scroll (with the geometry `handleScroll` reads), and the Resume
button. -/
inductive ViewerEvent where
  | append
  | scroll (scrollHeight scrollTop clientHeight : Int)
  | resume
  deriving DecidableEq, Repr

/-- The at-bottom test of `handleScroll`:
`Math.abs(scrollHeight - scrollTop - clientHeight) < 10`. -/
def atBottom (scrollHeight scrollTop clientHeight : Int) : Bool :=
  (scrollHeight - scrollTop - clientHeight).natAbs < 10

/-- One transition of the viewer, from `LiveLogViewer.tsx`: the
append effect scrolls to the newest filtered index only while
`autoScroll` holds; `handleScroll` sets `autoScroll` to the at-bottom
test; Resume sets `autoScroll` and scrolls to the end. -/
def viewerStep (s : ViewerState) : ViewerEvent → ViewerState
  | ViewerEvent.append =>
    if s.autoScroll then
      { s with
        filteredCount := s.filteredCount + 1
        viewport := ViewPos.atIndex s.filteredCount }
    else { s with filteredCount := s.filteredCount + 1 }
  | ViewerEvent.scroll sh st ch =>
    { s with
      autoScroll := atBottom sh st ch
      viewport := ViewPos.scrolled sh st ch }
  | ViewerEvent.resume =>
    { s with
      autoScroll := true
      viewport := ViewPos.atIndex (s.filteredCount - 1) }

/-- Run a sequence of viewer events. -/
def viewerRun (s : ViewerState) (es : List ViewerEvent) : ViewerState :=
  es.foldl viewerStep s

/-- The initial viewer state (`useState(true)`, no entries). -/
def viewerInit : ViewerState := ⟨true, 0, ViewPos.atIndex 0⟩

/-- An event that neither is Resume nor scrolls back to the bottom. -/
def NonResuming : ViewerEvent → Prop
  | ViewerEvent.append => True
  | ViewerEvent.scroll sh st ch => atBottom sh st ch = false
  | ViewerEvent.resume => False

instance : ∀ e : ViewerEvent, Decidable (NonResuming e)
  | ViewerEvent.append => isTrue trivial
  | ViewerEvent.scroll sh st ch => instDecidableEqBool (atBottom sh st ch) false
  | ViewerEvent.resume => isFalse (fun h => h)

theorem viewerRun_appends_auto :
    ∀ (es : List ViewerEvent) (s : ViewerState), s.autoScroll = true →
      (∀ e ∈ es, e = ViewerEvent.append) → es ≠ [] →
      viewerRun s es =
        ⟨true, s.filteredCount + es.length,
          ViewPos.atIndex (s.filteredCount + es.length - 1)⟩ := by
  intro es
  induction es with
  | nil => intro s _ _ h; exact absurd rfl h
  | cons e rest ih =>
    intro s hs hall _
    obtain ⟨a, c, v⟩ := s
    have hsa : a = true := hs
    subst hsa
    have he : e = ViewerEvent.append := hall e (List.mem_cons_self _ _)
    subst he
    have hstep : viewerStep ⟨true, c, v⟩ ViewerEvent.append
        = ⟨true, c + 1, ViewPos.atIndex c⟩ := by
      unfold viewerStep
      rw [if_pos rfl]
    show viewerRun (viewerStep ⟨true, c, v⟩ ViewerEvent.append) rest = _
    rw [hstep]
    cases rest with
    | nil =>
      show (⟨true, c + 1, ViewPos.atIndex c⟩ : ViewerState) = _
      simp
    | cons e2 rest2 =>
      rw [ih ⟨true, c + 1, ViewPos.atIndex c⟩ rfl
        (fun x hx => hall x (List.mem_cons_of_mem _ hx))
        (List.cons_ne_nil _ _)]
      have hl1 : c + 1 + (e2 :: rest2).length
          = c + (ViewerEvent.append :: e2 :: rest2).length := by
        simp
        omega
      rw [hl1]

theorem viewerRun_appends_noauto :
    ∀ (es : List ViewerEvent) (s : ViewerState), s.autoScroll = false →
      (∀ e ∈ es, e = ViewerEvent.append) →
      viewerRun s es = ⟨false, s.filteredCount + es.length, s.viewport⟩ := by
  intro es
  induction es with
  | nil =>
    intro s hs _
    obtain ⟨a, c, v⟩ := s
    have hsa : a = false := hs
    subst hsa
    rfl
  | cons e rest ih =>
    intro s hs hall
    obtain ⟨a, c, v⟩ := s
    have hsa : a = false := hs
    subst hsa
    have he : e = ViewerEvent.append := hall e (List.mem_cons_self _ _)
    subst he
    have hstep : viewerStep ⟨false, c, v⟩ ViewerEvent.append
        = ⟨false, c + 1, v⟩ := by
      unfold viewerStep
      rw [if_neg (by simp)]
    show viewerRun (viewerStep ⟨false, c, v⟩ ViewerEvent.append) rest = _
    rw [hstep, ih ⟨false, c + 1, v⟩ rfl
      (fun x hx => hall x (List.mem_cons_of_mem _ hx))]
    have : c + 1 + rest.length = c + (ViewerEvent.append :: rest).length := by
      simp
      omega
    rw [this]

theorem viewerRun_stays_off :
    ∀ (es : List ViewerEvent) (s : ViewerState), s.autoScroll = false →
      (∀ e ∈ es, NonResuming e) → (viewerRun s es).autoScroll = false := by
  intro es
  induction es with
  | nil => intro s hs _; exact hs
  | cons e rest ih =>
    intro s hs hall
    show (viewerRun (viewerStep s e) rest).autoScroll = false
    apply ih
    · cases e with
      | append =>
        obtain ⟨a, c, v⟩ := s
        have hsa : a = false := hs
        subst hsa
        show (viewerStep ⟨false, c, v⟩ ViewerEvent.append).autoScroll = false
        unfold viewerStep
        rw [if_neg (by simp)]
      | scroll sh st ch =>
        have hb : atBottom sh st ch = false :=
          hall _ (List.mem_cons_self _ _)
        show atBottom sh st ch = false
        exact hb
      | resume => exact absurd (hall _ (List.mem_cons_self _ _)) not_false
    · exact fun x hx => hall x (List.mem_cons_of_mem _ hx)

/-- C7 (amended): while `autoScroll` holds, appends leave the viewport
at the newest filtered entry; a scroll away from the bottom turns
`autoScroll` off; while off, appends move neither the flag nor the
viewport; `autoScroll` stays off across any events that are neither the
Resume action nor a scroll back to within epsilon of the bottom; Resume
turns it on and scrolls to the end at once. -/
theorem viewer_autofollow_behavior :
    (∀ (s : ViewerState) (es : List ViewerEvent), s.autoScroll = true →
      (∀ e ∈ es, e = ViewerEvent.append) → es ≠ [] →
      (viewerRun s es).autoScroll = true ∧
      (viewerRun s es).filteredCount = s.filteredCount + es.length ∧
      (viewerRun s es).viewport
        = ViewPos.atIndex ((viewerRun s es).filteredCount - 1)) ∧
    (∀ (s : ViewerState) (sh st ch : Int), atBottom sh st ch = false →
      (viewerStep s (ViewerEvent.scroll sh st ch)).autoScroll = false) ∧
    (∀ (s : ViewerState) (es : List ViewerEvent), s.autoScroll = false →
      (∀ e ∈ es, e = ViewerEvent.append) →
      (viewerRun s es).autoScroll = false ∧
      (viewerRun s es).viewport = s.viewport) ∧
    (∀ (s : ViewerState) (es : List ViewerEvent), s.autoScroll = false →
      (∀ e ∈ es, NonResuming e) → (viewerRun s es).autoScroll = false) ∧
    (∀ s : ViewerState,
      (viewerStep s ViewerEvent.resume).autoScroll = true ∧
      (viewerStep s ViewerEvent.resume).viewport
        = ViewPos.atIndex (s.filteredCount - 1)) := by
  refine ⟨?_, ?_, ?_, ?_, ?_⟩
  · intro s es hs hall hne
    rw [viewerRun_appends_auto es s hs hall hne]
    exact ⟨rfl, rfl, rfl⟩
  · intro s sh st ch hb
    show atBottom sh st ch = false
    exact hb
  · intro s es hs hall
    rw [viewerRun_appends_noauto es s hs hall]
    exact ⟨rfl, rfl⟩
  · intro s es hs hall
    exact viewerRun_stays_off es s hs hall
  · intro s
    exact ⟨rfl, rfl⟩

/-- C7 counterexample: after scrolling away (distance 50) and then
scrolling back to the bottom (distance 0) — with no Resume action in the
trace — `autoScroll` is re-enabled, refuting that it stays false until
the jump-to-latest action. -/
theorem autoFollow_reenabled_without_resume :
    (viewerRun viewerInit [ViewerEvent.scroll 100 0 50]).autoScroll
        = false ∧
      (viewerRun viewerInit
          [ViewerEvent.scroll 100 0 50,
           ViewerEvent.scroll 100 90 10]).autoScroll = true ∧
      ViewerEvent.resume
        ∉ [ViewerEvent.scroll 100 0 50, ViewerEvent.scroll 100 90 10] := by
  refine ⟨by decide, by decide, by decide⟩

/-- C7 witness: the amended behavior theorem applied to concrete
traces. -/
theorem viewer_autofollow_behavior_witness :
    ((viewerRun viewerInit [ViewerEvent.append, ViewerEvent.append]).viewport
        = ViewPos.atIndex 1) ∧
      ((viewerStep viewerInit (ViewerEvent.scroll 100 0 50)).autoScroll
        = false) ∧
      ((viewerRun ⟨false, 3, ViewPos.scrolled 100 0 50⟩
          [ViewerEvent.append]).viewport = ViewPos.scrolled 100 0 50) ∧
      ((viewerRun ⟨false, 3, ViewPos.scrolled 100 0 50⟩
          [ViewerEvent.append, ViewerEvent.scroll 200 0 50,
           ViewerEvent.append]).autoScroll = false) ∧
      ((viewerStep ⟨false, 3, ViewPos.scrolled 100 0 50⟩
          ViewerEvent.resume).viewport = ViewPos.atIndex 2) :=
  ⟨(viewer_autofollow_behavior.1 viewerInit
      [ViewerEvent.append, ViewerEvent.append] (by decide)
      (by decide) (by decide)).2.2,
   viewer_autofollow_behavior.2.1 viewerInit 100 0 50 (by decide),
   (viewer_autofollow_behavior.2.2.1 ⟨false, 3, ViewPos.scrolled 100 0 50⟩
      [ViewerEvent.append] (by decide) (by decide)).2,
   viewer_autofollow_behavior.2.2.2.1 ⟨false, 3, ViewPos.scrolled 100 0 50⟩
      [ViewerEvent.append, ViewerEvent.scroll 200 0 50, ViewerEvent.append]
      (by decide) (by decide),
   (viewer_autofollow_behavior.2.2.2.2
      ⟨false, 3, ViewPos.scrolled 100 0 50⟩).2⟩

/-! ### Live stream controller (`useLiveLogs` / `useLiveExecutionUpdates`) -/

/-- A parsed WebSocket envelope (`WebSocketMessage` from
`types/index.ts`), with the `data` fields the two hooks read flattened
in. -/
structure Envelope where
  type : String
  execution_id : String
  timestamp : String
  dataLevel : Option String
  dataMessage : Option String
  dataNodeId : Option String
  dataNodeExecution : Option NodeExecutionResponse
  deriving DecidableEq, Repr

/-- State accumulated by `useLiveLogs`: the log sequence, the
`logIdCounter` ref, and the connection flag. -/
structure LiveLogsState where
  logs : List LogEntry
  counter : Nat
  isConnected : Bool
  deriving DecidableEq, Repr

/-- State accumulated by `useLiveExecutionUpdates`: the per-node result
record and the connection flag. -/
structure LiveExecState where
  nodeResults : String → Option NodeExecutionResponse
  isConnected : Bool

/-- The `onmessage` handler of `useLiveLogs` on one inbound transport
message; `none` is a payload `JSON.parse` rejects — the catch branch
logs locally and changes nothing. -/
def liveLogsStep (s : LiveLogsState) (msg : Option Envelope) :
    LiveLogsState :=
  match msg with
  | none => s
  | some m =>
    if m.type == "log" then
      { s with
        logs := s.logs ++
          [⟨"log-" ++ toString s.counter, m.dataLevel.getD "info",
            m.dataMessage.getD "", m.timestamp, m.dataNodeId,
            m.execution_id⟩]
        counter := s.counter + 1 }
    else s

/-- The `onmessage` handler of `useLiveExecutionUpdates` on one inbound
transport message: a `log` envelope embedding a node execution record
overwrites that node's entry wholesale. -/
def liveExecStep (s : LiveExecState) (msg : Option Envelope) :
    LiveExecState :=
  match msg with
  | none => s
  | some m =>
    if m.type == "log" then
      match m.dataNodeExecution with
      | some ne =>
        { s with nodeResults :=
            fun k => if k = ne.node_id then some ne else s.nodeResults k }
      | none => s
    else s

/-- Process a whole inbound message sequence through `useLiveLogs`. -/
def liveLogsRun (s : LiveLogsState) (ms : List (Option Envelope)) :
    LiveLogsState :=
  ms.foldl liveLogsStep s

/-- Process a whole inbound message sequence through
`useLiveExecutionUpdates`. -/
def liveExecRun (s : LiveExecState) (ms : List (Option Envelope)) :
    LiveExecState :=
  ms.foldl liveExecStep s

/-- C8: an unparseable payload leaves both hooks' accumulated state
unchanged (log sequence, counter, node-result map, connection flags),
and dropping it from any message sequence — wherever it occurs — leaves
the processing of all other messages unaffected. -/
theorem malformed_message_ignored (ls : LiveLogsState) (es : LiveExecState)
    (ms1 rest : List (Option Envelope)) :
    liveLogsStep ls none = ls ∧
    liveExecStep es none = es ∧
    liveLogsRun ls (none :: rest) = liveLogsRun ls rest ∧
    liveExecRun es (none :: rest) = liveExecRun es rest ∧
    liveLogsRun ls (ms1 ++ none :: rest) = liveLogsRun ls (ms1 ++ rest) ∧
    liveExecRun es (ms1 ++ none :: rest) = liveExecRun es (ms1 ++ rest) := by
  refine ⟨rfl, rfl, rfl, rfl, ?_, ?_⟩
  · show (ms1 ++ none :: rest).foldl liveLogsStep ls
      = (ms1 ++ rest).foldl liveLogsStep ls
    rw [List.foldl_append, List.foldl_append]
    rfl
  · show (ms1 ++ none :: rest).foldl liveExecStep es
      = (ms1 ++ rest).foldl liveExecStep es
    rw [List.foldl_append, List.foldl_append]
    rfl

/-! ### YAML node extraction (`yamlParser.ts`) -/

/-- A raw node object of a parsed workflow document; `config` and
`depends_on` may be absent. -/
structure RawYamlNode where
  id : String
  type : String
  config : Option (List (String × String))
  depends_on : Option (List String)
  deriving DecidableEq, Repr

/-- The JS value a parsed document carries in its `nodes` field:
falsy (absent, null, or another falsy value — the guard
`!parsed?.nodes` catches these), a truthy value that is not an array
(on which `.map` throws), or an array whose entries are node objects or
null/undefined (on which the property access `node.id` throws). -/
inductive YamlNodesField where
  | falsy
  | nonArray
  | array (elems : List (Option RawYamlNode))
  deriving DecidableEq, Repr

/-- The parts of a parsed workflow document (`ParsedWorkflow`) that
`extractNodesFromYaml` reads. -/
structure ParsedWorkflowDoc where
  name : String
  version : Nat
  nodes : YamlNodesField
  deriving DecidableEq, Repr

/-- The outcome of the external `yaml` package's `parse` call on an
input string: it throws (`failure`), or returns a document, possibly
`null`. -/
inductive YamlParseOutcome where
  | failure
  | success (doc : Option ParsedWorkflowDoc)
  deriving DecidableEq, Repr

/-- `parseWorkflowYaml` from `yamlParser.ts`: the parsed document, with
the catch branch logging and returning `null` when the parser throws. -/
def parseWorkflowYaml : YamlParseOutcome → Option ParsedWorkflowDoc
  | YamlParseOutcome.failure => none
  | YamlParseOutcome.success d => d

/-- The `parsed.nodes.map(...)` callback chain applied left to right:
a null/undefined entry throws a TypeError at the property access
`node.id`; a node object is rebuilt with `config` defaulted. -/
def mapYamlNodes : List (Option RawYamlNode) →
    Except String (List WorkflowNode)
  | [] => Except.ok []
  | none :: _ =>
    Except.error "TypeError: cannot read properties of null"
  | some n :: rest =>
    match mapYamlNodes rest with
    | Except.ok ns =>
      Except.ok (⟨n.id, n.type, n.config.getD [], n.depends_on⟩ :: ns)
    | Except.error e => Except.error e

/-- `extractNodesFromYaml` from `yamlParser.ts`: `[]` when the document
is missing or its `nodes` field is falsy; otherwise the unguarded
`parsed.nodes.map(...)`, which throws on a non-array `nodes` value and
on null entries (`Except.error` models the escaping exception). -/
def extractNodesFromYaml (outcome : YamlParseOutcome) :
    Except String (List WorkflowNode) :=
  match parseWorkflowYaml outcome with
  | none => Except.ok []
  | some doc =>
    match doc.nodes with
    | YamlNodesField.falsy => Except.ok []
    | YamlNodesField.nonArray =>
      Except.error "TypeError: parsed.nodes.map is not a function"
    | YamlNodesField.array elems => mapYamlNodes elems

/-- C10 counterexample: `extractNodesFromYaml` does throw — a document
whose truthy `nodes` field is not an array (e.g. the YAML `nodes: 5`)
passes the `!parsed?.nodes` guard and fails at `.map`, and a null array
entry (e.g. `nodes: [null]`) fails at the `node.id` access. -/
theorem extractNodesFromYaml_throws_on_malformed_nodes :
    extractNodesFromYaml
        (YamlParseOutcome.success
          (some ⟨"wf", 1, YamlNodesField.nonArray⟩))
      = Except.error "TypeError: parsed.nodes.map is not a function" ∧
    extractNodesFromYaml
        (YamlParseOutcome.success
          (some ⟨"wf", 1, YamlNodesField.array [none]⟩))
      = Except.error "TypeError: cannot read properties of null" :=
  ⟨rfl, rfl⟩

theorem mapYamlNodes_all_objects (ns : List RawYamlNode) :
    mapYamlNodes (ns.map some)
      = Except.ok
          (ns.map (fun n => ⟨n.id, n.type, n.config.getD [], n.depends_on⟩)) := by
  induction ns with
  | nil => rfl
  | cons n rest ih =>
    show (match mapYamlNodes (rest.map some) with
      | Except.ok ns =>
        Except.ok
          ((⟨n.id, n.type, n.config.getD [], n.depends_on⟩ : WorkflowNode)
            :: ns)
      | Except.error e => Except.error e) = _
    rw [ih]
    rfl

/-- C10 (amended): an unparseable string, a null document, or a falsy
`nodes` field yields the empty list without throwing; a `nodes` array
of node objects yields, without throwing, each node with its id, type
and `depends_on` preserved and `config` replaced by the empty map when
absent. (A truthy non-array `nodes` value, or a null array entry,
instead makes the function throw.) -/
theorem extractNodesFromYaml_wellformed :
    (extractNodesFromYaml YamlParseOutcome.failure = Except.ok []) ∧
    (extractNodesFromYaml (YamlParseOutcome.success none) = Except.ok []) ∧
    (∀ d : ParsedWorkflowDoc, d.nodes = YamlNodesField.falsy →
      extractNodesFromYaml (YamlParseOutcome.success (some d))
        = Except.ok []) ∧
    (∀ (d : ParsedWorkflowDoc) (ns : List RawYamlNode),
      d.nodes = YamlNodesField.array (ns.map some) →
      extractNodesFromYaml (YamlParseOutcome.success (some d))
        = Except.ok
            (ns.map (fun n =>
              ⟨n.id, n.type, n.config.getD [], n.depends_on⟩))) := by
  refine ⟨rfl, rfl, ?_, ?_⟩
  · intro d hd
    show (match d.nodes with
      | YamlNodesField.falsy => Except.ok []
      | YamlNodesField.nonArray =>
        Except.error "TypeError: parsed.nodes.map is not a function"
      | YamlNodesField.array elems => mapYamlNodes elems)
      = Except.ok []
    rw [hd]
  · intro d ns hd
    show (match d.nodes with
      | YamlNodesField.falsy => Except.ok []
      | YamlNodesField.nonArray =>
        Except.error "TypeError: parsed.nodes.map is not a function"
      | YamlNodesField.array elems => mapYamlNodes elems)
      = _
    rw [hd]
    show mapYamlNodes (ns.map some) = _
    rw [mapYamlNodes_all_objects]

/-- A document with one config-less node object. -/
def sampleYamlDoc : ParsedWorkflowDoc :=
  ⟨"wf", 1, YamlNodesField.array [some ⟨"a", "shell", none, none⟩]⟩

/-- A document whose `nodes` field is falsy. -/
def nodelessYamlDoc : ParsedWorkflowDoc := ⟨"wf", 1, YamlNodesField.falsy⟩

/-- C10 witness: the amended extraction theorem applied to concrete
parse outcomes. -/
theorem extractNodesFromYaml_wellformed_witness :
    (nodelessYamlDoc.nodes = YamlNodesField.falsy) ∧
      (sampleYamlDoc.nodes
        = YamlNodesField.array
            (([⟨"a", "shell", none, none⟩] : List RawYamlNode).map some)) ∧
      extractNodesFromYaml (YamlParseOutcome.success (some nodelessYamlDoc))
        = Except.ok [] ∧
      extractNodesFromYaml (YamlParseOutcome.success (some sampleYamlDoc))
        = Except.ok [⟨"a", "shell", [], none⟩] :=
  ⟨rfl, rfl,
   extractNodesFromYaml_wellformed.2.2.1 nodelessYamlDoc rfl,
   by
     rw [extractNodesFromYaml_wellformed.2.2.2 sampleYamlDoc
       [⟨"a", "shell", none, none⟩] rfl]
     rfl⟩

end FlowPilot
